import Mathlib

set_option maxRecDepth 4000
set_option maxHeartbeats 1000000

/-!
# Verification of the anicam telemetry-extraction and sync core

Shallow embedding of the algorithmic core of the repository:

* the SEI worker pipeline (`src/workers/sei-worker.ts`, glued into
  `src/i18n.ts` in the source drop): `findMdatInChunk`, `scanForMdat`,
  `parseFileStreaming`, `parseNalUnitsInChunk`, `extractProtoPayload`,
  `stripEmulationPreventionBytes`, `decodeProtobuf`, `readVarint`;
* the inline batch extractor (`sei-parser.ts`, `part_011`):
  `findMdat`, `iterNals` plus the same extract/decode helpers;
* the telemetry lookup (`src/utils/sei-extractor.ts`,
  `SeiExtractor.getTelemetryAtTime`);
* the per-stream stall/recovery and seek state machine of
  `useUnifiedTimeline` (`part_004`, `frameLoop` / `updateTime`).

Byte buffers are `List ℕ` (a `Uint8Array` always holds values `< 256`;
theorems that need this carry it as a hypothesis).  JavaScript numbers are
embedded as `ℕ`/`ℤ` for the integer paths and as `ℚ` for the media-time
paths; 32-bit bitwise operations are modelled on naturals reduced
`% 2 ^ 32`.  IEEE float reinterpretation (`readFloat` / `readDouble`) is
represented by keeping the raw little-endian byte slice: both decoder
copies call the identical reinterpretation on the same bytes, so equality
of the raw slices is equality of the decoded numbers.
-/

namespace Anicam

/-- Byte access `data[i]` on a `Uint8Array`; all modelled reads are
in-bounds in the code paths embedded here, the default only totalizes. -/
def byteAt (data : List ℕ) (i : ℕ) : ℕ := data.getD i 0

/-- `view.getUint32(pos, false)`: big-endian 32-bit read. -/
def be32At (data : List ℕ) (pos : ℕ) : ℕ :=
  byteAt data pos * 16777216 + byteAt data (pos + 1) * 65536 +
    byteAt data (pos + 2) * 256 + byteAt data (pos + 3)

/-- Big-endian 4-byte encoding of a length (the framing writer's side,
used to build well-formed unit streams). -/
def be32Enc (n : ℕ) : List ℕ :=
  [n / 16777216 % 256, n / 65536 % 256, n / 256 % 256, n % 256]

/-- `readVarint` loop body (sei-worker.ts / sei-parser.ts).  JavaScript
evaluates `result |= (byte & 0x7f) << shift` on 32-bit integers (shift
count taken mod 32) and finally returns `result >>> 0`; `result` is kept
here as the unsigned 32-bit pattern throughout.  The loop breaks when the
continuation bit is clear or when `shift` would reach 64. -/
def readVarintAux (data : List ℕ) (pos : ℕ) : ℕ → ℕ → ℕ → ℕ → ℕ × ℕ
  | 0, result, _, bytesRead => (result, bytesRead)
  | fuel + 1, result, shift, bytesRead =>
    if pos + bytesRead < data.length then
      let byte := byteAt data (pos + bytesRead)
      let result' := result ||| ((byte &&& 127) <<< (shift % 32)) % 2 ^ 32
      if byte &&& 128 = 0 then (result', bytesRead + 1)
      else
        if shift + 7 ≥ 64 then (result', bytesRead + 1)
        else readVarintAux data pos fuel result' (shift + 7) (bytesRead + 1)
    else (result, bytesRead)

/-- `readVarint(data, pos)`: returns `(value, bytesRead)`.  The shift cap
bounds the loop at 10 iterations, which is the fuel given; the fuel-0
case returns the loop-exit value and is unreachable from here. -/
def readVarint (data : List ℕ) (pos : ℕ) : ℕ × ℕ :=
  readVarintAux data pos 10 0 0 0

/-- `stripEmulationPreventionBytes` loop, tracking the run of consecutive
zero bytes. -/
def stripAux : List ℕ → ℕ → List ℕ
  | [], _ => []
  | b :: rest, zeroCount =>
    if zeroCount ≥ 2 ∧ b = 3 then stripAux rest 0
    else b :: stripAux rest (if b = 0 then zeroCount + 1 else 0)

/-- `stripEmulationPreventionBytes(data)` (identical in sei-worker.ts and
sei-parser.ts). -/
def stripEmulationPreventionBytes (data : List ℕ) : List ℕ :=
  stripAux data 0

/-- A decoded JavaScript field value.  Floats and doubles keep the raw
little-endian byte slice that `readFloat` / `readDouble` reinterpret. -/
inductive JsVal where
  | num (n : ℤ)
  | f32 (bs : List ℕ)
  | f64 (bs : List ℕ)
  | bytes (bs : List ℕ)
  | boolVal (b : Bool)
  deriving DecidableEq, Repr

/-- The declared type of a schema field (`SeiFieldType` in the source). -/
inductive SeiFieldType where
  | uint32 | uint64 | flt | dbl | boolT | enumT
  deriving DecidableEq, Repr

/-- `SEI_FIELDS`: the fixed field schema (identical tables in
sei-worker.ts and sei-parser.ts; keyed here by field number, the name map
being a bijection shared by both copies). -/
def seiFields : ℕ → Option SeiFieldType
  | 1 => some .uint32
  | 2 => some .enumT
  | 3 => some .uint64
  | 4 => some .flt
  | 5 => some .flt
  | 6 => some .flt
  | 7 => some .boolT
  | 8 => some .boolT
  | 9 => some .boolT
  | 10 => some .enumT
  | 11 => some .dbl
  | 12 => some .dbl
  | 13 => some .dbl
  | 14 => some .dbl
  | 15 => some .dbl
  | 16 => some .dbl
  | _ => none

/-- Reinterpret an unsigned 32-bit pattern as a JavaScript `| 0` result. -/
def toSigned32 (n : ℕ) : ℤ :=
  if n % 2 ^ 32 < 2 ^ 31 then (n % 2 ^ 32 : ℤ) else (n % 2 ^ 32 : ℤ) - 2 ^ 32

/-- `readFixed32` on a 4-byte slice: `b0 | b1<<8 | b2<<16 | b3<<24`,
a signed 32-bit integer. -/
def fixed32FromBytes (bs : List ℕ) : ℤ :=
  toSigned32 ((byteAt bs 0 ||| (byteAt bs 1 <<< 8) ||| (byteAt bs 2 <<< 16) |||
    (byteAt bs 3 <<< 24)) % 2 ^ 32)

/-- `readFixed64` on an 8-byte slice: `low + high * 0x100000000` with both
halves read through the signed `readFixed32`. -/
def fixed64FromBytes (bs : List ℕ) : ℤ :=
  fixed32FromBytes (bs.take 4) + fixed32FromBytes (bs.drop 4) * 4294967296

/-- A decoded telemetry sample: field-number-keyed record written with JS
object overwrite semantics. -/
abbrev Sample := List (ℕ × JsVal)

/-- `result[name] = value` on a JS object: overwrite in place if the key
exists, otherwise append. -/
def storeField (acc : Sample) (k : ℕ) (v : JsVal) : Sample :=
  if acc.any (fun p => p.1 = k) then
    acc.map (fun p => if p.1 = k then (k, v) else p)
  else acc ++ [(k, v)]

/-- JavaScript `fieldValue !== 0` (the boolean-field conversion): false
exactly for the number zero, true for every other value. -/
def jsNeqZero : JsVal → Bool
  | .num n => n ≠ 0
  | _ => true

/-- The store step at the end of the decode loop: known fields are stored
(booleans via `!== 0`), unknown field numbers are discarded. -/
def applyField (acc : Sample) (fn : ℕ) (v : JsVal) : Sample :=
  match seiFields fn with
  | some ft => storeField acc fn (if ft = .boolT then .boolVal (jsNeqZero v) else v)
  | none => acc

/-- One raw (schema-free) wire value: the wire type together with the
bytes/value it consumed. -/
inductive RawVal where
  | vint (v : ℕ)
  | fx64 (bs : List ℕ)
  | fx32 (bs : List ℕ)
  | ldelim (bs : List ℕ)
  deriving DecidableEq, Repr

/-- Why the decode loop returned. -/
inductive StopK where
  | bufferEnd | headerEmpty | fixedOverrun | badWireType | valueMissing
  deriving DecidableEq, Repr

/-- Result of the schema-free structural parse. -/
structure RawResult where
  fields : List (ℕ × RawVal)
  stop : StopK
  pos : ℕ
  deriving DecidableEq, Repr

/-- Schema-free structural parse of the record stream: identical control
flow to `decodeProtobuf`, but every field is kept raw.  This is the
second definition used to state that unknown fields are consumed purely
by wire type. -/
def rawParseAux (data : List ℕ) : ℕ → ℕ → RawResult
  | 0, pos => ⟨[], .bufferEnd, pos⟩
  | fuel + 1, pos =>
    if pos < data.length then
      if (readVarint data pos).2 = 0 then ⟨[], .headerEmpty, pos⟩
      else
        let pos1 := pos + (readVarint data pos).2
        let fn := (readVarint data pos).1 / 8
        let wt := (readVarint data pos).1 % 8
        if wt = 0 then
          let vv := readVarint data pos1
          if vv.2 = 0 then ⟨[], .valueMissing, pos1⟩
          else
            let r := rawParseAux data fuel (pos1 + vv.2)
            ⟨(fn, .vint vv.1) :: r.fields, r.stop, r.pos⟩
        else if wt = 1 then
          if pos1 + 8 > data.length then ⟨[], .fixedOverrun, pos1⟩
          else
            let r := rawParseAux data fuel (pos1 + 8)
            ⟨(fn, .fx64 ((data.drop pos1).take 8)) :: r.fields, r.stop, r.pos⟩
        else if wt = 5 then
          if pos1 + 4 > data.length then ⟨[], .fixedOverrun, pos1⟩
          else
            let r := rawParseAux data fuel (pos1 + 4)
            ⟨(fn, .fx32 ((data.drop pos1).take 4)) :: r.fields, r.stop, r.pos⟩
        else if wt = 2 then
          let lv := readVarint data pos1
          let pos2 := pos1 + lv.2
          let r := rawParseAux data fuel (pos2 + lv.1)
          ⟨(fn, .ldelim ((data.drop pos2).take lv.1)) :: r.fields, r.stop, r.pos⟩
        else ⟨[], .badWireType, pos1⟩
    else ⟨[], .bufferEnd, pos⟩

/-- The schema-free parse of a whole buffer.  Each iteration advances
`pos` by at least one byte, so `data.length + 1` fuel is a loop bound;
the fuel-0 case returns the loop-exit value and is unreachable. -/
def rawParse (data : List ℕ) : RawResult :=
  rawParseAux data (data.length + 1) 0

/-- Interpretation of one raw field value under the schema, exactly as the
`switch` in `decodeProtobuf` computes `fieldValue`. -/
def interpVal (fn : ℕ) : RawVal → JsVal
  | .vint v => .num v
  | .fx64 bs => if seiFields fn = some .dbl then .f64 bs else .num (fixed64FromBytes bs)
  | .fx32 bs => if seiFields fn = some .flt then .f32 bs else .num (fixed32FromBytes bs)
  | .ldelim bs => .bytes bs

/-- Folding one raw field into the sample under the schema. -/
def interpStep (acc : Sample) (p : ℕ × RawVal) : Sample :=
  applyField acc p.1 (interpVal p.1 p.2)

/-- `decodeProtobuf` loop (identical in sei-worker.ts and sei-parser.ts):
reads a tag varint, dispatches on the wire type, bounds-checks fixed-width
reads, stores known fields, and drops unknown ones. -/
def decodeAux (data : List ℕ) : ℕ → ℕ → Sample → Sample
  | 0, _, acc => acc
  | fuel + 1, pos, acc =>
    if pos < data.length then
      if (readVarint data pos).2 = 0 then acc
      else
        let pos1 := pos + (readVarint data pos).2
        let fn := (readVarint data pos).1 / 8
        let wt := (readVarint data pos).1 % 8
        if wt = 0 then
          let vv := readVarint data pos1
          if vv.2 = 0 then acc
          else decodeAux data fuel (pos1 + vv.2) (applyField acc fn (interpVal fn (.vint vv.1)))
        else if wt = 1 then
          if pos1 + 8 > data.length then acc
          else decodeAux data fuel (pos1 + 8)
            (applyField acc fn (interpVal fn (.fx64 ((data.drop pos1).take 8))))
        else if wt = 5 then
          if pos1 + 4 > data.length then acc
          else decodeAux data fuel (pos1 + 4)
            (applyField acc fn (interpVal fn (.fx32 ((data.drop pos1).take 4))))
        else if wt = 2 then
          let lv := readVarint data pos1
          let pos2 := pos1 + lv.2
          decodeAux data fuel (pos2 + lv.1)
            (applyField acc fn (interpVal fn (.ldelim ((data.drop pos2).take lv.1))))
        else acc
    else acc

/-- `decodeProtobuf(data)`: one telemetry sample.  Fuel as in
`rawParse`. -/
def decodeProtobuf (data : List ℕ) : Sample :=
  decodeAux data (data.length + 1) 0 []

/-- `extractProtoPayload` scan: from `i = 3`, skip a run of `0x42` marker
bytes; the first `0x69` (at `i > 2`, always true here) starts the payload,
which runs to `length - 1`; any other byte aborts. -/
def extractAux (nal : List ℕ) : ℕ → ℕ → Option (List ℕ)
  | 0, _ => none
  | fuel + 1, i =>
    if i + 1 < nal.length then
      if byteAt nal i = 66 then extractAux nal fuel (i + 1)
      else if byteAt nal i = 105 ∧ i > 2 then
        some ((nal.drop (i + 1)).take (nal.length - 1 - (i + 1)))
      else none
    else none

/-- `extractProtoPayload(nal)` (identical in both extractor copies): the
de-stuffed record payload, or `none` when the marker signature is absent.
The index loop runs at most `nal.length` iterations; the fuel-0 case
returns the loop-exit value. -/
def extractProtoPayload (nal : List ℕ) : Option (List ℕ) :=
  if nal.length < 2 then none
  else (extractAux nal nal.length 3).map stripEmulationPreventionBytes

/-- The decode tail shared verbatim by both pipelines: marker extraction,
de-stuffing, record decode, and the `Object.keys(m).length > 0`
non-emptiness filter. -/
def decodeSeiNal (nal : List ℕ) : Option Sample :=
  match extractProtoPayload nal with
  | some payload =>
    let m := decodeProtobuf payload
    if m ≠ [] then some m else none
  | none => none

/-- The worker's per-unit step: the SEI check (`firstByte & 0x1f == 6`,
`secondByte == 5`, read off the sliced unit whose bytes are
`chunk[pos+4..]`) followed by the shared decode tail. -/
def seiSample? (nal : List ℕ) : Option Sample :=
  if byteAt nal 0 &&& 31 = 6 ∧ byteAt nal 1 = 5 then decodeSeiNal nal
  else none

/-- Result record of `parseNalUnitsInChunk`. -/
structure ParseResult where
  frames : List (ℕ × Sample)
  nextFrameIndex : ℕ
  remaining : Option (List ℕ)
  deriving DecidableEq, Repr

/-- `parseNalUnitsInChunk` loop (sei-worker.ts).  Note the loop guard is
`pos + 4 < chunk.length`, so the body's short-tail check
`pos + 4 > chunk.length` (kept in the source) is unreachable and a tail of
at most 4 bytes falls through to `remaining: null`. -/
def parseNalAux (chunk : List ℕ) : ℕ → ℕ → ℕ → List (ℕ × Sample) → ParseResult
  | 0, _, frameIndex, acc => ⟨acc, frameIndex, none⟩
  | fuel + 1, pos, frameIndex, acc =>
    if pos + 4 < chunk.length then
      let nalSize := be32At chunk pos
      if nalSize < 2 ∨ nalSize > 10485760 then
        parseNalAux chunk fuel (pos + 4) frameIndex acc
      else if pos + 4 + nalSize > chunk.length then
        ⟨acc, frameIndex, some (chunk.drop pos)⟩
      else
        match seiSample? ((chunk.drop (pos + 4)).take nalSize) with
        | some m => parseNalAux chunk fuel (pos + 4 + nalSize) (frameIndex + 1)
            (acc ++ [(frameIndex, m)])
        | none => parseNalAux chunk fuel (pos + 4 + nalSize) frameIndex acc
    else ⟨acc, frameIndex, none⟩

/-- `parseNalUnitsInChunk(chunk, startFrameIndex)`.  Each iteration
advances `pos` by at least 4 bytes, so `chunk.length + 1` fuel is a loop
bound; the fuel-0 case returns the loop-exit value. -/
def parseNalUnitsInChunk (chunk : List ℕ) (startFrameIndex : ℕ) : ParseResult :=
  parseNalAux chunk (chunk.length + 1) 0 startFrameIndex []

/-- The streaming loop of `parseFileStreaming` restricted to its NAL
phase: each chunk is prepended with the previous call's remainder
(`pendingBuffer`), parsed, and the final pending tail is never parsed
again once the chunks are exhausted. -/
def chunkedParseAux : List (List ℕ) → List ℕ → ℕ → List (ℕ × Sample) →
    List (ℕ × Sample) × ℕ × List ℕ
  | [], pending, frameIndex, acc => (acc, frameIndex, pending)
  | c :: rest, pending, frameIndex, acc =>
    let r := parseNalUnitsInChunk (pending ++ c) frameIndex
    chunkedParseAux rest (r.remaining.getD []) r.nextFrameIndex (acc ++ r.frames)

/-- Chunked parse of a byte stream split into consecutive chunks, as
`parseFileStreaming` performs it. -/
def chunkedParse (chunks : List (List ℕ)) : List (ℕ × Sample) × ℕ × List ℕ :=
  chunkedParseAux chunks [] 0 []

/-- `iterNals` generator loop plus the per-unit decode done by its caller
`extractSeiMetadata` (sei-parser.ts).  On corrupt framing it advances by
`4 + (nalSize < 2 ? nalSize : 0)` bytes; there is no 10 MiB upper
bound. -/
def iterNalsAux (data : List ℕ) (offset endPos : ℕ) :
    ℕ → ℕ → List Sample → List Sample
  | 0, _, acc => acc
  | fuel + 1, consumed, acc =>
    if offset + consumed + 4 < endPos then
      let pos := offset + consumed
      let nalSize := be32At data pos
      if nalSize < 2 ∨ pos + 4 + nalSize > endPos then
        iterNalsAux data offset endPos fuel
          (consumed + 4 + (if nalSize < 2 then nalSize else 0)) acc
      else if byteAt data (pos + 4) &&& 31 = 6 ∧ byteAt data (pos + 5) = 5 then
        match decodeSeiNal ((data.drop (pos + 4)).take nalSize) with
        | some m => iterNalsAux data offset endPos fuel (consumed + 4 + nalSize) (acc ++ [m])
        | none => iterNalsAux data offset endPos fuel (consumed + 4 + nalSize) acc
      else iterNalsAux data offset endPos fuel (consumed + 4 + nalSize) acc
    else acc

/-- `iterNals(dataView, offset, size)` composed with the decode loop of
`extractSeiMetadata`: the ordered list of decoded samples.  `consumed`
grows by at least 4 per iteration, so `endPos + 1` fuel is a loop bound;
the fuel-0 case returns the loop-exit value. -/
def iterNalsDecode (data : List ℕ) (offset size : ℕ) : List Sample :=
  iterNalsAux data offset (if size = 0 then data.length else offset + size)
    ((if size = 0 then data.length else offset + size) + 1) 0 []

/-- `view.getBigUint64(pos, false)`: big-endian 8-byte read (as a JS
`Number`). -/
def be64At (data : List ℕ) (pos : ℕ) : ℕ :=
  be32At data pos * 4294967296 + be32At data (pos + 4)

/-- `atomType === 'mdat'` at `chunk[pos..pos+3]`. -/
def isMdatAt (chunk : List ℕ) (pos : ℕ) : Prop :=
  byteAt chunk pos = 109 ∧ byteAt chunk (pos + 1) = 100 ∧
    byteAt chunk (pos + 2) = 97 ∧ byteAt chunk (pos + 3) = 116

instance (chunk : List ℕ) (pos : ℕ) : Decidable (isMdatAt chunk pos) := by
  unfold isMdatAt; infer_instance

/-- The `(atomSize, headerSize)` computation of `findMdatInChunk`: an
extended size is honoured only when 16 header bytes fit, otherwise the
raw 32-bit size (or to-end-of-chunk for zero) is used. -/
def atomHeader (chunk : List ℕ) (pos : ℕ) : ℤ × ℕ :=
  if be32At chunk pos = 1 ∧ pos + 16 ≤ chunk.length then
    ((be64At chunk (pos + 8) : ℤ), 16)
  else if be32At chunk pos = 0 then ((chunk.length : ℤ) - pos, 8)
  else ((be32At chunk pos : ℤ), 8)

/-- `findMdatInChunk(chunk, 0)` walk (the call site passes
`baseOffset = 0`).  Returns `(payload offset, payload size)`; the declared
size may be smaller than the header, so the size is an integer. -/
def findMdatInChunk (chunk : List ℕ) : ℕ → ℕ → Option (ℕ × ℤ)
  | 0, _ => none
  | fuel + 1, pos =>
    if pos + 8 < chunk.length then
      match atomHeader chunk pos with
      | (atomSize, headerSize) =>
        if isMdatAt chunk (pos + 4) then
          some (pos + headerSize, atomSize - headerSize)
        else if atomSize < (headerSize : ℤ) then none
        else findMdatInChunk chunk fuel (pos + atomSize.toNat)
    else none

/-- The header computation of the streaming `scanForMdat`: it reads a
16-byte window `readChunk(file, pos, min(pos+16, fileSize))`. -/
def scanHeader (file : List ℕ) (pos : ℕ) : ℤ × ℕ :=
  if be32At ((file.drop pos).take 16) 0 = 1 then
    ((be64At ((file.drop pos).take 16) 8 : ℤ), 16)
  else if be32At ((file.drop pos).take 16) 0 = 0 then ((file.length : ℤ) - pos, 8)
  else ((be32At ((file.drop pos).take 16) 0 : ℤ), 8)

/-- `scanForMdat(file)` loop.  Unlike `findMdatInChunk`, the extended-size
read `view.getBigUint64(8)` is NOT guarded by a length check: when fewer
than 16 bytes remain in the window it raises a `RangeError`, modelled as
`Except.error`.  `pos` grows by at least 8 per iteration, so
`file.length + 1` fuel is a loop bound; fuel 0 returns the loop-exit
value. -/
def scanForMdatAux (file : List ℕ) : ℕ → ℕ → Except Unit (Option (ℕ × ℤ))
  | 0, _ => .ok none
  | fuel + 1, pos =>
    if pos + 8 < file.length then
      let hc := (file.drop pos).take 16
      if be32At hc 0 = 1 ∧ hc.length < 16 then .error ()
      else
        match scanHeader file pos with
        | (atomSize, headerSize) =>
          if isMdatAt hc 4 then
            .ok (some (pos + headerSize, atomSize - headerSize))
          else if atomSize < (headerSize : ℤ) then .ok none
          else scanForMdatAux file fuel (pos + atomSize.toNat)
    else .ok none

/-- Final message of a worker run: either the `complete` message with the
frame count and the ordered `frame` messages, or the `error` message from
the `catch` in `parseFileStreaming`. -/
inductive WorkerOutcome where
  | complete (totalFrames : ℕ) (frames : List (ℕ × Sample))
  | errorOut
  deriving DecidableEq, Repr

/-- The `while (offset < mdatEnd)` chunk loop of `parseFileStreaming`:
1 MiB reads with the previous remainder prepended. -/
def mdatLoop (file : List ℕ) (mdatEnd : ℕ) :
    ℕ → ℕ → List ℕ → ℕ → List (ℕ × Sample) → List (ℕ × Sample) × ℕ
  | 0, _, _, frameIndex, acc => (acc, frameIndex)
  | fuel + 1, offset, pending, frameIndex, acc =>
    if offset < mdatEnd then
      let chunkEnd := min (offset + 1048576) mdatEnd
      let chunk := (file.drop offset).take (chunkEnd - offset)
      let r := parseNalUnitsInChunk (pending ++ chunk) frameIndex
      mdatLoop file mdatEnd fuel chunkEnd (r.remaining.getD []) r.nextFrameIndex (acc ++ r.frames)
    else (acc, frameIndex)

/-- `mdatEnd = mdatSize > 0 ? mdatOffset + mdatSize : fileSize`. -/
def mdatEndOf (file : List ℕ) (mdatOffset : ℕ) (mdatSize : ℤ) : ℕ :=
  if 0 < mdatSize then mdatOffset + mdatSize.toNat else file.length

/-- `parseFileStreaming(file)` end to end: 100 KiB header scan, fallback
streaming scan (whose `RangeError` is caught and posted as `error`), then
the chunked NAL parse, ending in the `complete` message. -/
def parseFileStreaming (file : List ℕ) : WorkerOutcome :=
  let headerChunk := file.take 102400
  match findMdatInChunk headerChunk (headerChunk.length + 1) 0 with
  | some (o, s) =>
    let r := mdatLoop file (mdatEndOf file o s) (mdatEndOf file o s + 1) o [] 0 []
    .complete r.2 r.1
  | none =>
    match scanForMdatAux file (file.length + 1) 0 with
    | .error _ => .errorOut
    | .ok none => .complete 0 []
    | .ok (some (o, s)) =>
      let r := mdatLoop file (mdatEndOf file o s) (mdatEndOf file o s + 1) o [] 0 []
      .complete r.2 r.1

/-- `findMdat` of the inline extractor (sei-parser.ts): same walk, but a
truncated extended size breaks the loop before the `mdat` check. -/
def findMdat (data : List ℕ) : ℕ → ℕ → Option (ℕ × ℤ)
  | 0, _ => none
  | fuel + 1, pos =>
    if pos + 8 < data.length then
      if be32At data pos = 1 ∧ data.length < pos + 16 then none
      else
        match atomHeader data pos with
        | (atomSize, headerSize) =>
          if isMdatAt data (pos + 4) then
            some (pos + headerSize, atomSize - headerSize)
          else if atomSize < (headerSize : ℤ) then none
          else findMdat data fuel (pos + atomSize.toNat)
    else none

/-- `extractSeiMetadata(buffer)`: the inline batch pipeline (its internal
`try` never fires in-bounds; the mdat size is taken non-negative here as
`iterNals` is only modelled for an in-range region). -/
def extractSeiMetadata (data : List ℕ) : List Sample :=
  match findMdat data (data.length + 1) 0 with
  | none => []
  | some (o, s) => iterNalsDecode data o s.toNat

/-- Per-slave sync state of the `frameLoop` in `useUnifiedTimeline`:
`lastTimes[cam]`, `stallCounts[cam]`, `recoveryAttempts[cam]`. -/
structure SlaveState where
  last : ℚ
  stall : ℕ
  attempt : ℕ
  deriving DecidableEq, Repr

/-- The per-tick readings of one video element. -/
structure SlaveObs where
  cur : ℚ
  paused : Bool
  ready : ℕ
  hasSrc : Bool
  deriving DecidableEq, Repr

/-- One slave-camera iteration of the stall handling in `frameLoop`
(lines guarded by the master actively progressing): progress resets both
counters; `STALL_THRESHOLD_FRAMES = 30` consecutive still ticks fire the
recovery tier `recoveryAttempts[cam]` and cycle it mod 3; a slave that is
paused or under-buffered only has its stall count cleared. -/
def slaveStallStep (s : SlaveState) (io : SlaveObs) : SlaveState × Option ℕ :=
  if io.paused = false ∧ io.ready ≥ 2 then
    if |io.cur - s.last| > 1 / 1000 then (⟨io.cur, 0, 0⟩, none)
    else if s.stall + 1 ≥ 30 then
      (⟨io.cur, 0, (s.attempt + 1) % 3⟩, some s.attempt)
    else (⟨io.cur, s.stall + 1, s.attempt⟩, none)
  else (⟨s.last, 0, s.attempt⟩, none)

/-- `n` consecutive ticks during which the slave's position stays exactly
at `cur` (not paused, buffered): the closed-loop run of
`slaveStallStep`, collecting fired recovery tiers in order. -/
def runStalledAux (s : SlaveState) (cur : ℚ) : ℕ → SlaveState × List ℕ
  | 0 => (s, [])
  | n + 1 =>
    let r := slaveStallStep s ⟨cur, false, 2, true⟩
    let rest := runStalledAux r.1 cur n
    (rest.1, r.2.toList ++ rest.2)

/-- Run of the stall machine from a freshly synced state. -/
def runStalled (s : SlaveState) (cur : ℚ) (n : ℕ) : SlaveState × List ℕ :=
  runStalledAux s cur n

/-- The per-camera reset performed when a pending seek completes
(`pendingSeekTimeRef.current = null` branch): the stall count is cleared
and `lastTimes` is re-read, but `recoveryAttempts` is left as it is. -/
def seekReset (s : SlaveState) (cur : ℚ) : SlaveState :=
  ⟨cur, 0, s.attempt⟩

/-- State owned by the `frameLoop` closure. -/
structure LoopState where
  pending : Option ℚ
  reported : ℚ
  frameCount : ℕ
  front : SlaveState
  slaves : List SlaveState
  deriving DecidableEq, Repr

/-- Observable actions of one tick. -/
structure TickOut where
  timeUpdated : Bool
  enforced : Bool
  slaveActs : List (Option ℕ)
  frontAct : Option ℕ
  driftSeeks : List Bool
  resumes : List Bool
  deriving DecidableEq, Repr

/-- The seek-enforcer's resolution test: a pending target counts as
reached when the master has metadata (`readyState >= 1`) and its position
is within 0.5 s of the target. -/
def seekResolved (pending : Option ℚ) (frontObs : SlaveObs) : Bool :=
  match pending with
  | some tgt => decide (frontObs.ready ≥ 1) && !decide (|frontObs.cur - tgt| > 1 / 2)
  | none => false

/-- The seek-enforcer's re-seek test (still off target by more than
0.5 s). -/
def seekEnforcing (pending : Option ℚ) (frontObs : SlaveObs) : Bool :=
  match pending with
  | some tgt => decide (frontObs.ready ≥ 1) && decide (|frontObs.cur - tgt| > 1 / 2)
  | none => false

/-- One full `frameLoop` tick: `updateTime` (gated on no pending seek),
the seek enforcer (re-seek while off target by more than 0.5 s, otherwise
resolve: sync slaves, clear the pending target, reset stall counters),
then — gated on the master playing and the pending reference being null
AFTER the enforcer ran — the stall handling and the throttled
(`frameCount % 30 == 0`) drift/resume pass. -/
def frameTick (st : LoopState) (frontObs : SlaveObs) (ios : List SlaveObs)
    (segStart : ℚ) : LoopState × TickOut :=
  let reported1 := if st.pending = none then segStart + frontObs.cur else st.reported
  let timeUpd := decide (st.pending = none)
  let resolved : Bool := seekResolved st.pending frontObs
  let enforced : Bool := seekEnforcing st.pending frontObs
  let pending2 : Option ℚ := if resolved then none else st.pending
  let front2 := if resolved then seekReset st.front frontObs.cur else st.front
  let slaves2 := if resolved then
      (st.slaves.zip ios).map (fun p => seekReset p.1 p.2.cur)
    else st.slaves
  if frontObs.paused = false ∧ pending2 = none then
    if |frontObs.cur - front2.last| > 1 / 1000 then
      let results := (slaves2.zip ios).map (fun p => slaveStallStep p.1 p.2)
      let throttled := st.frameCount % 30 = 0
      ({ pending := pending2, reported := reported1,
         frameCount := st.frameCount + 1,
         front := ⟨frontObs.cur, 0, front2.attempt⟩,
         slaves := results.map (·.1) },
       { timeUpdated := timeUpd, enforced := enforced,
         slaveActs := results.map (·.2), frontAct := none,
         driftSeeks := ios.map (fun io => decide throttled && io.hasSrc &&
           decide (io.ready ≥ 2) && decide (|io.cur - frontObs.cur| > 15 / 100)),
         resumes := ios.map (fun io => decide throttled && io.hasSrc &&
           decide (io.ready ≥ 2) && io.paused) })
    else
      let fired := front2.stall + 1 ≥ 30
      ({ pending := pending2, reported := reported1,
         frameCount := st.frameCount + 1,
         front := if fired then ⟨frontObs.cur, 0, (front2.attempt + 1) % 3⟩
           else ⟨frontObs.cur, front2.stall + 1, front2.attempt⟩,
         slaves := slaves2 },
       { timeUpdated := timeUpd, enforced := enforced,
         slaveActs := ios.map (fun _ => none),
         frontAct := if fired then some front2.attempt else none,
         driftSeeks := ios.map (fun _ => false),
         resumes := ios.map (fun _ => false) })
  else if frontObs.paused then
    ({ pending := pending2, reported := reported1, frameCount := st.frameCount,
       front := ⟨frontObs.cur, 0, front2.attempt⟩,
       slaves := (slaves2.zip ios).map (fun p => ⟨p.2.cur, 0, p.1.attempt⟩) },
     { timeUpdated := timeUpd, enforced := enforced,
       slaveActs := ios.map (fun _ => none), frontAct := none,
       driftSeeks := ios.map (fun _ => false),
       resumes := ios.map (fun _ => false) })
  else
    ({ pending := pending2, reported := reported1, frameCount := st.frameCount,
       front := front2, slaves := slaves2 },
     { timeUpdated := timeUpd, enforced := enforced,
       slaveActs := ios.map (fun _ => none), frontAct := none,
       driftSeeks := ios.map (fun _ => false),
       resumes := ios.map (fun _ => false) })

/-- `SeiExtractor.getTelemetryAtTime(data, time, totalDuration)`
(sei-extractor.ts): dynamic effective rate with a 36 fps fallback,
negative indices return `null`, overlong indices clamp to the last
sample. -/
def getTelemetryAtTime {α : Type} (data : List α) (time totalDuration : ℚ) :
    Option α :=
  if data.length = 0 then none
  else
    let effectiveFps : ℚ :=
      if 0 < totalDuration ∧ 0 < data.length then (data.length : ℚ) / totalDuration
      else 36
    let frameIndex : ℤ := ⌊time * effectiveFps⌋
    if frameIndex < 0 then none
    else if (data.length : ℤ) ≤ frameIndex then data.get? (data.length - 1)
    else data.get? frameIndex.toNat

/-- Spec-side encoder for the framing contract: a stream that is an exact
concatenation of 4-byte big-endian length prefixes and their payloads. -/
def encodeUnits : List (List ℕ) → List ℕ
  | [] => []
  | u :: rest => be32Enc u.length ++ u ++ encodeUnits rest

/-- Spec-side well-formedness of one framed unit: declared length within
`[2, 10 MiB]` and genuine byte values. -/
def WFUnit (u : List ℕ) : Prop :=
  2 ≤ u.length ∧ u.length ≤ 10485760 ∧ ∀ b ∈ u, b < 256

instance (u : List ℕ) : Decidable (WFUnit u) := by
  unfold WFUnit
  infer_instance

/-- The common specification both NAL iterations should satisfy on
well-formed framing: per-unit SEI filtering and decoding, in order. -/
def unitsSamples (us : List (List ℕ)) : List Sample :=
  us.filterMap seiSample?

/-- Attach consecutive frame indices starting at `k`. -/
def numberFrom (k : ℕ) : List Sample → List (ℕ × Sample)
  | [] => []
  | m :: rest => (k, m) :: numberFrom (k + 1) rest

/-- Whether the byte string `mdat` occurs anywhere in the buffer. -/
def containsMdat (l : List ℕ) : Bool :=
  (List.range l.length).any (fun i => decide (isMdatAt l i))

/-- Spec-side rendering of the byte-stuffing removal rule: walking the
input with its two predecessor bytes (sentinel 1 ≠ 0 for the first two
positions), a `0x03` byte is dropped exactly when both original
predecessors are zero, i.e. when it immediately follows a run of two or
more zero bytes; every other byte is kept. -/
def stripSpecAux : ℕ → ℕ → List ℕ → List ℕ
  | _, _, [] => []
  | p2, p1, b :: rest =>
    if b = 3 ∧ p1 = 0 ∧ p2 = 0 then stripSpecAux p1 b rest
    else b :: stripSpecAux p1 b rest

/-- The declarative byte-stuffing removal from the specification text. -/
def stripSpec (d : List ℕ) : List ℕ :=
  stripSpecAux 1 1 d

/-- The ordered telemetry-sample sequence a worker run delivers (frame
messages in order, empty on an error run). -/
def workerSamples (file : List ℕ) : List Sample :=
  match parseFileStreaming file with
  | .complete _ frames => frames.map (fun p => p.2)
  | .errorOut => []

/-! ## Varint reader -/

theorem lor_mod32_lt {r x : ℕ} (hr : r < 2 ^ 32) : r ||| x % 2 ^ 32 < 2 ^ 32 :=
  Nat.bitwise_lt hr (Nat.mod_lt x (by norm_num))

theorem readVarintAux_bounds (data : List ℕ) (pos : ℕ) :
    ∀ fuel result shift b, result < 2 ^ 32 →
      (readVarintAux data pos fuel result shift b).1 < 2 ^ 32 ∧
      (readVarintAux data pos fuel result shift b).2 ≤ b + fuel := by
  intro fuel
  induction fuel with
  | zero => intro r sh b hr; simpa [readVarintAux] using hr
  | succ n ih =>
    intro r sh b hr
    simp only [readVarintAux]
    split
    · split
      · exact ⟨lor_mod32_lt hr, by omega⟩
      · split
        · exact ⟨lor_mod32_lt hr, by omega⟩
        · have := ih (r ||| (byteAt data (pos + b) &&& 127) <<< (sh % 32) % 2 ^ 32)
            (sh + 7) (b + 1) (lor_mod32_lt hr)
          exact ⟨this.1, by omega⟩
    · exact ⟨hr, by omega⟩

theorem readVarintAux_fuel_irrel (data : List ℕ) (pos : ℕ) :
    ∀ f g b result, b ≤ 9 → 10 ≤ b + f → 10 ≤ b + g →
      readVarintAux data pos f result (7 * b) b =
        readVarintAux data pos g result (7 * b) b := by
  intro f
  induction f with
  | zero => intro g b r hb hf hg; omega
  | succ n ih =>
    intro g b r hb hf hg
    obtain ⟨m, rfl⟩ : ∃ m, g = m + 1 := ⟨g - 1, by omega⟩
    · simp only [readVarintAux]
      split
      · split
        · rfl
        · split
          · rfl
          · rename_i hlt hcont hsh
            have hb8 : b ≤ 8 := by omega
            have := ih m (b + 1)
              (r ||| (byteAt data (pos + b) &&& 127) <<< (7 * b % 32) % 2 ^ 32)
              (by omega) (by omega) (by omega)
            calc readVarintAux data pos n _ (7 * b + 7) (b + 1)
                = readVarintAux data pos n _ (7 * (b + 1)) (b + 1) := by ring_nf
              _ = readVarintAux data pos m _ (7 * (b + 1)) (b + 1) := this
              _ = readVarintAux data pos m _ (7 * b + 7) (b + 1) := by ring_nf
      · rfl

/-- C10: for every byte buffer and start position, `readVarint`
terminates (it is a total function), consumes at most 10 bytes, and its
value is a non-negative integer strictly below `2^32`; the 10-byte cap is
intrinsic — any fuel of at least 10 iterations gives the same result, as
the `shift >= 64` guard stops the loop even when every byte has its
continuation bit set. -/
theorem readVarint_bounds (data : List ℕ) (pos : ℕ) :
    (readVarint data pos).2 ≤ 10 ∧ (readVarint data pos).1 < 2 ^ 32 ∧
      ∀ fuel, 10 ≤ fuel →
        readVarintAux data pos fuel 0 0 0 = readVarint data pos := by
  refine ⟨(readVarintAux_bounds data pos 10 0 0 0 (by norm_num)).2,
    (readVarintAux_bounds data pos 10 0 0 0 (by norm_num)).1, ?_⟩
  intro fuel hfuel
  have := readVarintAux_fuel_irrel data pos fuel 10 0 0 (by norm_num)
    (by omega) (by norm_num)
  simpa [readVarint] using this

/-- Witness for C10 at a concrete malformed input: eleven `0xff` bytes
(every continuation bit set). -/
theorem readVarint_bounds_witness :
    (readVarint (List.replicate 11 255) 0).2 ≤ 10 ∧
      readVarintAux (List.replicate 11 255) 0 12 0 0 0 =
        readVarint (List.replicate 11 255) 0 :=
  ⟨(readVarint_bounds (List.replicate 11 255) 0).1,
    (readVarint_bounds (List.replicate 11 255) 0).2.2 12 (by norm_num)⟩

/-! ## Byte-stuffing removal (C5) -/

theorem stripAux_eq_spec :
    ∀ (d : List ℕ) (zc p2 p1 : ℕ),
      (1 ≤ zc ↔ p1 = 0) → (2 ≤ zc ↔ p1 = 0 ∧ p2 = 0) →
      stripAux d zc = stripSpecAux p2 p1 d := by
  intro d
  induction d with
  | nil => intro zc p2 p1 _ _; rfl
  | cons b rest ih =>
    intro zc p2 p1 h1 h2
    have hiff : (zc ≥ 2 ∧ b = 3) ↔ (b = 3 ∧ p1 = 0 ∧ p2 = 0) := by
      constructor
      · rintro ⟨hz, hb⟩; exact ⟨hb, h2.mp hz⟩
      · rintro ⟨hb, hp⟩; exact ⟨h2.mpr hp, hb⟩
    simp only [stripAux, stripSpecAux]
    by_cases hc : b = 3 ∧ p1 = 0 ∧ p2 = 0
    · rw [if_pos (hiff.mpr hc), if_pos hc]
      exact ih 0 p1 b (by simp [hc.1]) (by simp [hc.1])
    · rw [if_neg (fun h => hc (hiff.mp h)), if_neg hc]
      by_cases hb0 : b = 0
      · refine congrArg _ (ih _ p1 b ?_ ?_)
        · simp [hb0]
        · rw [if_pos hb0]
          constructor
          · intro h; exact ⟨hb0, h1.mp (by omega)⟩
          · rintro ⟨-, hp1⟩; have := h1.mpr hp1; omega
      · refine congrArg _ (ih _ p1 b ?_ ?_)
        · simp [hb0]
        · simp [hb0]

/-- C5: byte-stuffing removal equals the specified run-tracking rule —
for every input, the output keeps every byte except exactly those `0x03`
bytes whose two predecessors in the original input are both zero (a run
of two or more zeros, the counter being reset after a drop); in
particular in `00 00 03 03` only the first `0x03` is dropped. -/
theorem stripEmulationPreventionBytes_spec :
    (∀ d, stripEmulationPreventionBytes d = stripSpec d) ∧
      stripEmulationPreventionBytes [0, 0, 3, 3] = [0, 0, 3] := by
  constructor
  · intro d
    exact stripAux_eq_spec d 0 1 1 (by omega) (by omega)
  · decide

/-! ## Record decoder (C6) -/

theorem readVarintAux_mono (data : List ℕ) (pos : ℕ) :
    ∀ fuel result shift b, b ≤ (readVarintAux data pos fuel result shift b).2 := by
  intro fuel
  induction fuel with
  | zero => intro r sh b; simp [readVarintAux]
  | succ n ih =>
    intro r sh b
    simp only [readVarintAux]
    split
    · split
      · simp
      · split
        · simp
        · exact le_trans (by omega) (ih _ _ (b + 1))
    · simp

theorem readVarintAux_le_length (data : List ℕ) (pos : ℕ) :
    ∀ fuel result shift b,
      (readVarintAux data pos fuel result shift b).2 ≤
        max b (data.length - pos) := by
  intro fuel
  induction fuel with
  | zero => intro r sh b; simp [readVarintAux]
  | succ n ih =>
    intro r sh b
    simp only [readVarintAux]
    split
    · rename_i hlt
      split
      · simp; omega
      · split
        · simp; omega
        · exact le_trans (ih _ _ (b + 1)) (by omega)
    · simp

theorem readVarintAux_pos (data : List ℕ) (pos : ℕ) :
    ∀ fuel result shift b, pos + b < data.length →
      b + 1 ≤ (readVarintAux data pos (fuel + 1) result shift b).2 := by
  intro fuel r sh b h
  simp only [readVarintAux]
  rw [if_pos h]
  split
  · simp
  · split
    · simp
    · exact le_trans (by omega) (readVarintAux_mono data pos fuel _ _ (b + 1))

theorem readVarint_pos (data : List ℕ) (pos : ℕ) (h : pos < data.length) :
    1 ≤ (readVarint data pos).2 := by
  unfold readVarint
  have h10 : (10 : ℕ) = 9 + 1 := rfl
  rw [h10]
  simpa using readVarintAux_pos data pos 9 0 0 0 (by simpa using h)

theorem readVarint_le (data : List ℕ) (pos : ℕ) :
    pos + (readVarint data pos).2 ≤ max pos data.length := by
  have := readVarintAux_le_length data pos 10 0 0 0
  unfold readVarint
  omega

theorem decodeAux_eq_foldl (data : List ℕ) :
    ∀ fuel pos acc,
      decodeAux data fuel pos acc =
        (rawParseAux data fuel pos).fields.foldl interpStep acc := by
  intro fuel
  induction fuel with
  | zero => intro pos acc; simp [decodeAux, rawParseAux]
  | succ n ih =>
    intro pos acc
    simp only [decodeAux, rawParseAux]
    split
    · split
      · simp
      · split
        · split
          · simp
          · simp only [List.foldl_cons]
            exact ih _ _
        · split
          · split
            · simp
            · simp only [List.foldl_cons]
              exact ih _ _
          · split
            · split
              · simp
              · simp only [List.foldl_cons]
                exact ih _ _
            · split
              · simp only [List.foldl_cons]
                exact ih _ _
              · simp
    · simp

theorem rawParseAux_stop (data : List ℕ) :
    ∀ fuel pos,
      (rawParseAux data fuel pos).stop ≠ .headerEmpty ∧
        ((rawParseAux data fuel pos).stop = .valueMissing →
          (rawParseAux data fuel pos).pos = data.length) := by
  intro fuel
  induction fuel with
  | zero => intro pos; simp [rawParseAux]
  | succ n ih =>
    intro pos
    simp only [rawParseAux]
    split
    · rename_i hpos
      split
      · rename_i hz
        exact absurd hz (by have := readVarint_pos data pos hpos; omega)
      · split
        · split
          · rename_i hv
            have hle := readVarint_le data pos
            have hle2 := readVarint_le data (pos + (readVarint data pos).2)
            constructor
            · simp
            · intro _
              simp only []
              by_cases hlt : pos + (readVarint data pos).2 < data.length
              · have := readVarint_pos data (pos + (readVarint data pos).2) hlt
                omega
              · omega
          · simpa using ih _
        · split
          · split
            · simp
            · simpa using ih _
          · split
            · split
              · simp
              · simpa using ih _
            · split
              · simpa using ih _
              · simp
    · simp

/-- C6: record-decoder totality and structure — `decodeProtobuf` is a
total function equal, on every input, to the schema-free structural parse
(`rawParse`, which consumes every field purely by its wire type, so
unknown field numbers cannot desync later fields) followed by per-field
schema interpretation and discarding of unknown numbers; moreover the
parse loop never stops on an empty tag read, and the only stop besides
the fixed-width overrun and the out-of-`{0,1,2,5}` wire type is an empty
value varint, which can occur only at the exact end of the buffer (so
the loop stops early exactly on fixed-width overrun or a bad wire
type). -/
theorem decodeProtobuf_characterization (data : List ℕ) :
    decodeProtobuf data = (rawParse data).fields.foldl interpStep [] ∧
      (rawParse data).stop ≠ .headerEmpty ∧
      ((rawParse data).stop = .valueMissing → (rawParse data).pos = data.length) :=
  ⟨decodeAux_eq_foldl data (data.length + 1) 0 [],
    (rawParseAux_stop data (data.length + 1) 0).1,
    (rawParseAux_stop data (data.length + 1) 0).2⟩

/-- Witness for C6 at a concrete truncated record `[0x08]` (tag for field
1, varint value missing): decoding returns the empty sample and the
structural parse stops at the end of the 1-byte buffer. -/
theorem decodeProtobuf_characterization_witness :
    decodeProtobuf [8] = (rawParse [8]).fields.foldl interpStep [] ∧
      (rawParse [8]).pos = [8].length :=
  ⟨(decodeProtobuf_characterization [8]).1,
    (decodeProtobuf_characterization [8]).2.2 (by decide)⟩

/-! ## Telemetry lookup (C2) -/

/-- C2 counterexample: a non-empty store and a negative elapsed time make
`getTelemetryAtTime` return `none` (the `frameIndex < 0` guard), so the
claim that `None` is returned only for an empty store is false as
stated. -/
theorem getTelemetryAtTime_neg_counterexample :
    getTelemetryAtTime [(5 : ℕ)] (-1) 1 = none ∧ ([(5 : ℕ)] : List ℕ) ≠ [] := by
  constructor
  · have h1 : ((1 : ℕ) : ℚ) / 1 = 1 := by norm_num
    simp only [getTelemetryAtTime, h1]
    have hf : ⌊(-1 : ℚ)⌋ = -1 := by
      rw [show ((-1 : ℚ)) = ((-1 : ℤ) : ℚ) by norm_num, Int.floor_intCast]
    simp [hf]
  · simp

/-- C2 amended: for a non-empty store with positive segment duration,
lookup returns `none` exactly when the computed index
`⌊t * count / duration⌋` is negative (in particular whenever `t < 0`);
for every `t ≥ 0` — including `t > duration` — it returns the sample at
index `min ⌊t * count / duration⌋ (count - 1)`, so a sample is always
returned with index within `[0, count-1]`. -/
theorem getTelemetryAtTime_amended {α : Type} (data : List α) (t dur : ℚ)
    (hne : data ≠ []) (hdur : 0 < dur) (ht : 0 ≤ t) :
    getTelemetryAtTime data t dur =
      data.get? (min (⌊t * ((data.length : ℚ) / dur)⌋).toNat (data.length - 1)) ∧
      ∃ x, getTelemetryAtTime data t dur = some x := by
  have hn : data.length ≠ 0 := by
    simpa [List.length_eq_zero] using hne
  have hcond : 0 < dur ∧ 0 < data.length := ⟨hdur, Nat.pos_of_ne_zero hn⟩
  have hidx : 0 ≤ ⌊t * ((data.length : ℚ) / dur)⌋ := by
    apply Int.floor_nonneg.mpr
    have : (0 : ℚ) ≤ (data.length : ℚ) / dur := by positivity
    exact mul_nonneg ht this
  simp only [getTelemetryAtTime, if_neg hn, if_pos hcond, if_neg (not_lt.mpr hidx)]
  constructor
  · split
    · rename_i hge
      congr 1
      omega
    · rename_i hlt
      push_neg at hlt
      congr 1
      omega
  · split
    · rename_i hge
      have hlt1 : data.length - 1 < data.length := by omega
      exact ⟨data.get ⟨data.length - 1, hlt1⟩, List.get?_eq_get hlt1⟩
    · rename_i hlt
      push_neg at hlt
      have hlt2 : (⌊t * ((data.length : ℚ) / dur)⌋).toNat < data.length := by omega
      exact ⟨data.get ⟨_, hlt2⟩, List.get?_eq_get hlt2⟩

/-- Witness for C2 (amended) on the one-sample store `[7]` at `t = 0`,
duration 1. -/
theorem getTelemetryAtTime_amended_witness :
    getTelemetryAtTime [(7 : ℕ)] 0 1 =
        [(7 : ℕ)].get? (min (⌊(0 : ℚ) * (((([(7 : ℕ)].length) : ℚ)) / 1)⌋).toNat
          ([(7 : ℕ)].length - 1)) ∧
      ∃ x, getTelemetryAtTime [(7 : ℕ)] 0 1 = some x :=
  getTelemetryAtTime_amended [(7 : ℕ)] 0 1 (by simp) (by norm_num) (by norm_num)

/-! ## Stall state machine (C3, C4) -/

/-- C3 counterexample: a tick where the position changes (from 0 to 1,
well above the 0.001 threshold) resets the recovery tier from 1 to 0
instead of leaving it unchanged, refuting the claimed tier
persistence. -/
theorem recovery_tier_persistence_counterexample :
    |(1 : ℚ) - (0 : ℚ)| > 1 / 1000 ∧
      (slaveStallStep ⟨0, 5, 1⟩ ⟨1, false, 2, true⟩).1.stall = 0 ∧
      (slaveStallStep ⟨0, 5, 1⟩ ⟨1, false, 2, true⟩).1.attempt ≠
        (⟨0, 5, 1⟩ : SlaveState).attempt := by
  refine ⟨by norm_num, ?_⟩
  norm_num [slaveStallStep]

/-- C3 amended: a tick where the stream's position changes returns the
stream to the synced state resetting BOTH its stall tick counter and its
recovery tier; it is the seek-completion reset that clears the stall
counter while leaving the recovery tier unchanged. -/
theorem recovery_tier_amended (s : SlaveState) (io : SlaveObs)
    (hp : io.paused = false) (hr : io.ready ≥ 2)
    (hm : |io.cur - s.last| > 1 / 1000) :
    slaveStallStep s io = (⟨io.cur, 0, 0⟩, none) ∧
      ∀ (s' : SlaveState) (c : ℚ),
        (seekReset s' c).attempt = s'.attempt ∧ (seekReset s' c).stall = 0 := by
  constructor
  · unfold slaveStallStep
    rw [if_pos ⟨hp, hr⟩, if_pos hm]
  · intro s' c
    exact ⟨rfl, rfl⟩

/-- Witness for C3 (amended) at a concrete progress tick. -/
theorem recovery_tier_amended_witness :
    slaveStallStep ⟨0, 5, 1⟩ ⟨1, false, 2, true⟩ = (⟨1, 0, 0⟩, none) ∧
      ∀ (s' : SlaveState) (c : ℚ),
        (seekReset s' c).attempt = s'.attempt ∧ (seekReset s' c).stall = 0 :=
  recovery_tier_amended ⟨0, 5, 1⟩ ⟨1, false, 2, true⟩ rfl (by norm_num)
    (by norm_num)

theorem runStalledAux_formula (cur : ℚ) :
    ∀ (n st a : ℕ), st < 30 → a < 3 →
      (runStalledAux ⟨cur, st, a⟩ cur n).2 =
        (List.range ((st + n) / 30)).map (fun i => (a + i) % 3) := by
  intro n
  induction n with
  | zero =>
    intro st a hst ha
    simp [runStalledAux, Nat.div_eq_of_lt hst]
  | succ n ih =>
    intro st a hst ha
    have hstep : slaveStallStep ⟨cur, st, a⟩ ⟨cur, false, 2, true⟩ =
        if st + 1 ≥ 30 then (⟨cur, 0, (a + 1) % 3⟩, some a)
        else (⟨cur, st + 1, a⟩, none) := by
      simp [slaveStallStep]
    simp only [runStalledAux, hstep]
    by_cases h30 : st + 1 ≥ 30
    · rw [if_pos h30]
      have hst29 : st = 29 := by omega
      subst hst29
      simp only [Option.toList]
      rw [ih 0 ((a + 1) % 3) (by omega) (by omega)]
      have hdiv : (29 + (n + 1)) / 30 = (0 + n) / 30 + 1 := by omega
      rw [hdiv, List.range_succ_eq_map]
      simp only [List.map_cons, List.map_map, List.singleton_append]
      refine List.cons_eq_cons.mpr ⟨by omega, ?_⟩
      apply List.map_congr_left
      intro i _
      simp only [Function.comp_apply]
      omega
    · rw [if_neg h30]
      simp only [Option.toList, List.nil_append]
      rw [ih (st + 1) a (by omega) ha]
      congr 2
      omega

/-- C4: graduated stall escalation — starting freshly synced at tier 0,
holding a non-master stream's position constant for `n` ticks (not
paused, buffered, master advancing) fires exactly one recovery action per
full 30-tick threshold window (`STALL_THRESHOLD_FRAMES`), with tiers
`0, 1, 2, 0, …` in order: tier 0 fires exactly once at the threshold, a
persisting stall fires tier 1 next (not tier 0 again), and the tier
cycles mod 3. -/
theorem graduated_stall_escalation (t : ℚ) (n : ℕ) :
    (runStalled ⟨t, 0, 0⟩ t n).2 = (List.range (n / 30)).map (fun i => i % 3) ∧
      (runStalled ⟨t, 0, 0⟩ t 30).2 = [0] ∧
      (runStalled ⟨t, 0, 0⟩ t 59).2 = [0] ∧
      (runStalled ⟨t, 0, 0⟩ t 60).2 = [0, 1] ∧
      (runStalled ⟨t, 0, 0⟩ t 120).2 = [0, 1, 2, 0] := by
  have h : ∀ m : ℕ, (runStalled ⟨t, 0, 0⟩ t m).2 =
      (List.range (m / 30)).map (fun i => i % 3) := by
    intro m
    have := runStalledAux_formula t m 0 0 (by norm_num) (by norm_num)
    simpa [runStalled] using this
  exact ⟨h n, (h 30).trans (by decide), (h 59).trans (by decide),
    (h 60).trans (by decide), (h 120).trans (by decide)⟩

/-! ## Chunk-boundary handling (C1) and malformed containers (C7) -/

/-- C1, evaluated at the failing split: the 11-byte buffer holding one
valid SEI unit parses to one sample in a single call with no remainder,
but splitting it as `[0,0] / rest` yields no samples at all — the first
call returns `remaining = none` for its 2-byte tail (the loop guard
`pos + 4 < chunk.length` makes the short-tail remainder branch dead
code), so the tail is dropped instead of being prepended to the next
chunk. -/
theorem chunk_boundary_drop_bug :
    ([0, 0] : List ℕ) ++ [0, 7, 6, 5, 0, 105, 56, 1, 128] =
        [0, 0, 0, 7, 6, 5, 0, 105, 56, 1, 128] ∧
      (parseNalUnitsInChunk [0, 0, 0, 7, 6, 5, 0, 105, 56, 1, 128] 0).frames =
        [(0, [(7, .boolVal true)])] ∧
      (parseNalUnitsInChunk [0, 0, 0, 7, 6, 5, 0, 105, 56, 1, 128] 0).remaining =
        none ∧
      (parseNalUnitsInChunk [0, 0] 0).remaining = none ∧
      (chunkedParse [[0, 0], [0, 7, 6, 5, 0, 105, 56, 1, 128]]).1 = [] := by
  decide

/-- C7, evaluated at the failing input: a 12-byte buffer with no `mdat`
byte sequence anywhere (an extended-size `free` box) makes
`scanForMdat` read an 8-byte extended size past the end of its 12-byte
window — a `RangeError` — so the worker run ends in the `error` message,
not the `complete`-with-zero-samples message the claim requires. -/
theorem malformed_container_error_bug :
    containsMdat [0, 0, 0, 1, 102, 114, 101, 101, 0, 0, 0, 0] = false ∧
      parseFileStreaming [0, 0, 0, 1, 102, 114, 101, 101, 0, 0, 0, 0] =
        .errorOut := by
  decide

/-! ## Equivalence of the two decode paths (C8) -/

/-- C8 counterexample: on a container whose media-data region starts with
the corrupt framing word `00 00 00 01`, the worker pipeline resynchronizes
by 4 bytes and decodes the following SEI unit (one sample), while the
inline batch pipeline skips `4 + nalSize` bytes for sizes below 2 and
desynchronizes, decoding nothing — the two ordered sample sequences
differ. -/
theorem pipelines_divergence_counterexample :
    parseFileStreaming ([0, 0, 0, 23, 109, 100, 97, 116] ++ [0, 0, 0, 1] ++
          [0, 0, 0, 7, 6, 5, 0, 105, 56, 1, 128]) =
        .complete 1 [(0, [(7, .boolVal true)])] ∧
      extractSeiMetadata ([0, 0, 0, 23, 109, 100, 97, 116] ++ [0, 0, 0, 1] ++
        [0, 0, 0, 7, 6, 5, 0, 105, 56, 1, 128]) = [] ∧
      workerSamples ([0, 0, 0, 23, 109, 100, 97, 116] ++ [0, 0, 0, 1] ++
          [0, 0, 0, 7, 6, 5, 0, 105, 56, 1, 128]) ≠
        extractSeiMetadata ([0, 0, 0, 23, 109, 100, 97, 116] ++ [0, 0, 0, 1] ++
          [0, 0, 0, 7, 6, 5, 0, 105, 56, 1, 128]) := by
  decide

theorem byteAt_drop (l : List ℕ) (m i : ℕ) :
    byteAt (l.drop m) i = byteAt l (m + i) := by
  show ((l.drop m).get? i).getD 0 = (l.get? (m + i)).getD 0
  rw [List.get?_drop]

theorem be32At_drop (l : List ℕ) (m pos : ℕ) :
    be32At (l.drop m) pos = be32At l (m + pos) := by
  simp only [be32At, byteAt_drop, Nat.add_assoc]

theorem be32At_encode (n : ℕ) (tail : List ℕ) (h : n < 2 ^ 32) :
    be32At (be32Enc n ++ tail) 0 = n := by
  simp only [be32Enc, be32At, byteAt, List.cons_append, List.getD_cons_zero,
    List.getD_cons_succ]
  omega

theorem encodeUnits_length_cons (u : List ℕ) (rest : List (List ℕ)) :
    (encodeUnits (u :: rest)).length = 4 + u.length + (encodeUnits rest).length := by
  simp [encodeUnits, be32Enc]
  omega

theorem encodeUnits_drop (u : List ℕ) (rest : List (List ℕ)) :
    (encodeUnits (u :: rest)).drop (4 + u.length) = encodeUnits rest := by
  show ((be32Enc u.length ++ u) ++ encodeUnits rest).drop (4 + u.length) = _
  have h4 : (be32Enc u.length ++ u).length = 4 + u.length := by
    simp [be32Enc]
    omega
  rw [← h4, List.drop_left]

theorem encodeUnits_slice (u : List ℕ) (rest : List (List ℕ)) :
    ((encodeUnits (u :: rest)).drop 4).take u.length = u := by
  show (((be32Enc u.length ++ u) ++ encodeUnits rest).drop 4).take u.length = _
  rw [List.append_assoc]
  have h4 : (be32Enc u.length).length = 4 := rfl
  rw [← h4, List.drop_left, List.take_left]

theorem parseNalAux_shift :
    ∀ (fuel : ℕ) (chunk : List ℕ) (pos k : ℕ) (acc : List (ℕ × Sample)),
      parseNalAux chunk fuel pos k acc = parseNalAux (chunk.drop pos) fuel 0 k acc := by
  intro fuel
  induction fuel with
  | zero => intro chunk pos k acc; simp [parseNalAux]
  | succ n ih =>
    intro chunk pos k acc
    simp only [parseNalAux, Nat.zero_add]
    have hlen : (chunk.drop pos).length = chunk.length - pos := by simp
    have hbe : be32At (chunk.drop pos) 0 = be32At chunk pos := by
      rw [be32At_drop]; simp
    rw [hlen, hbe]
    by_cases h1 : pos + 4 < chunk.length
    · have h1' : 4 < chunk.length - pos := by omega
      rw [if_pos h1, if_pos h1']
      by_cases h2 : be32At chunk pos < 2 ∨ be32At chunk pos > 10485760
      · rw [if_pos h2, if_pos h2, ih chunk (pos + 4) k acc,
          ih (chunk.drop pos) 4 k acc, List.drop_drop]
      · rw [if_neg h2, if_neg h2]
        by_cases h3 : pos + 4 + be32At chunk pos > chunk.length
        · have h3' : 4 + be32At chunk pos > chunk.length - pos := by omega
          rw [if_pos h3, if_pos h3']
          simp
        · have h3' : ¬(4 + be32At chunk pos > chunk.length - pos) := by omega
          rw [if_neg h3, if_neg h3']
          have hslice : ((chunk.drop pos).drop 4).take (be32At chunk pos) =
              ((chunk.drop (pos + 4)).take (be32At chunk pos)) := by
            rw [List.drop_drop]
          rw [hslice]
          cases hm : seiSample? ((chunk.drop (pos + 4)).take (be32At chunk pos)) with
          | some m =>
            simp only []
            rw [ih chunk (pos + 4 + be32At chunk pos) (k + 1),
              ih (chunk.drop pos) (4 + be32At chunk pos) (k + 1), List.drop_drop,
              ← Nat.add_assoc]
          | none =>
            simp only []
            rw [ih chunk (pos + 4 + be32At chunk pos) k,
              ih (chunk.drop pos) (4 + be32At chunk pos) k, List.drop_drop,
              ← Nat.add_assoc]
    · have h1' : ¬(4 < chunk.length - pos) := by omega
      rw [if_neg h1, if_neg h1']

theorem parseNalAux_encode :
    ∀ (us : List (List ℕ)) (fuel k : ℕ) (acc : List (ℕ × Sample)),
      (∀ u ∈ us, WFUnit u) → (encodeUnits us).length < fuel →
      parseNalAux (encodeUnits us) fuel 0 k acc =
        ⟨acc ++ numberFrom k (unitsSamples us),
          k + (unitsSamples us).length, none⟩ := by
  intro us
  induction us with
  | nil =>
    intro fuel k acc _ hfuel
    obtain ⟨f, rfl⟩ : ∃ f, fuel = f + 1 := ⟨fuel - 1, by omega⟩
    simp [parseNalAux, encodeUnits, unitsSamples, numberFrom]
  | cons u rest ih =>
    intro fuel k acc hwf hfuel
    obtain ⟨f, rfl⟩ : ∃ f, fuel = f + 1 := ⟨fuel - 1, by omega⟩
    obtain ⟨hu2, hu10, -⟩ := hwf u (by simp)
    have hlen := encodeUnits_length_cons u rest
    have hbe : be32At (encodeUnits (u :: rest)) 0 = u.length := by
      rw [show encodeUnits (u :: rest) =
        be32Enc u.length ++ (u ++ encodeUnits rest) by
          simp [encodeUnits, List.append_assoc]]
      exact be32At_encode u.length _ (by omega)
    simp only [parseNalAux, Nat.zero_add, hbe]
    rw [if_pos (show 4 < (encodeUnits (u :: rest)).length by omega),
      if_neg (show ¬(u.length < 2 ∨ u.length > 10485760) by omega),
      if_neg (show ¬(4 + u.length > (encodeUnits (u :: rest)).length) by omega),
      encodeUnits_slice]
    have hrest : ∀ v ∈ rest, WFUnit v := fun v hv => hwf v (by simp [hv])
    have hfuel' : (encodeUnits rest).length < f := by omega
    cases hs : seiSample? u with
    | some m =>
      dsimp only
      rw [parseNalAux_shift f (encodeUnits (u :: rest)) (4 + u.length),
        encodeUnits_drop, ih f (k + 1) (acc ++ [(k, m)]) hrest hfuel']
      have hus : unitsSamples (u :: rest) = m :: unitsSamples rest := by
        simp [unitsSamples, hs]
      rw [hus]
      simp [numberFrom]
      omega
    | none =>
      dsimp only
      rw [parseNalAux_shift f (encodeUnits (u :: rest)) (4 + u.length),
        encodeUnits_drop, ih f k acc hrest hfuel']
      have hus : unitsSamples (u :: rest) = unitsSamples rest := by
        simp [unitsSamples, hs]
      rw [hus]

theorem iterNalsAux_shift :
    ∀ (fuel : ℕ) (data : List ℕ) (offset endPos consumed : ℕ) (acc : List Sample),
      iterNalsAux data offset endPos fuel consumed acc =
        iterNalsAux (data.drop (offset + consumed)) 0
          (endPos - (offset + consumed)) fuel 0 acc := by
  intro fuel
  induction fuel with
  | zero => intro data offset endPos consumed acc; simp [iterNalsAux]
  | succ n ih =>
    intro data offset endPos consumed acc
    simp only [iterNalsAux, Nat.zero_add, Nat.add_zero]
    have hbe : be32At (data.drop (offset + consumed)) 0 =
        be32At data (offset + consumed) := by
      rw [be32At_drop]; simp
    rw [hbe]
    by_cases h1 : offset + consumed + 4 < endPos
    · rw [if_pos h1, if_pos (show 4 < endPos - (offset + consumed) by omega)]
      by_cases h2 : be32At data (offset + consumed) < 2 ∨
          offset + consumed + 4 + be32At data (offset + consumed) > endPos
      · have h2' : be32At data (offset + consumed) < 2 ∨
            4 + be32At data (offset + consumed) > endPos - (offset + consumed) := by
          rcases h2 with h | h
          · exact Or.inl h
          · exact Or.inr (by omega)
        rw [if_pos h2, if_pos h2']
        by_cases hns : be32At data (offset + consumed) < 2
        · rw [if_pos hns,
            ih data offset endPos
              (consumed + 4 + be32At data (offset + consumed)) acc,
            ih (data.drop (offset + consumed)) 0 (endPos - (offset + consumed))
              (4 + be32At data (offset + consumed)) acc,
            List.drop_drop,
            show offset + (consumed + 4 + be32At data (offset + consumed)) =
              offset + consumed + (0 + (4 + be32At data (offset + consumed)))
              by omega,
            Nat.sub_sub]
        · rw [if_neg hns,
            ih data offset endPos (consumed + 4 + 0) acc,
            ih (data.drop (offset + consumed)) 0 (endPos - (offset + consumed))
              (4 + 0) acc,
            List.drop_drop,
            show offset + (consumed + 4 + 0) = offset + consumed + (0 + (4 + 0))
              by omega,
            Nat.sub_sub]
      · have h2' : ¬(be32At data (offset + consumed) < 2 ∨
            4 + be32At data (offset + consumed) > endPos - (offset + consumed)) := by
          push_neg
          push_neg at h2
          exact ⟨h2.1, by omega⟩
        rw [if_neg h2, if_neg h2']
        have hb4 := byteAt_drop data (offset + consumed) 4
        have hb5 := byteAt_drop data (offset + consumed) 5
        rw [hb4, hb5]
        have hslice : ((data.drop (offset + consumed)).drop 4).take
            (be32At data (offset + consumed)) =
            (data.drop (offset + consumed + 4)).take
              (be32At data (offset + consumed)) := by
          rw [List.drop_drop]
        rw [hslice]
        by_cases hsei : byteAt data (offset + consumed + 4) &&& 31 = 6 ∧
            byteAt data (offset + consumed + 5) = 5
        · rw [if_pos hsei, if_pos hsei]
          cases hd : decodeSeiNal ((data.drop (offset + consumed + 4)).take
              (be32At data (offset + consumed))) with
          | some m =>
            dsimp only
            rw [ih data offset endPos
                (consumed + 4 + be32At data (offset + consumed)) (acc ++ [m]),
              ih (data.drop (offset + consumed)) 0 (endPos - (offset + consumed))
                (4 + be32At data (offset + consumed)) (acc ++ [m]),
              List.drop_drop,
              show offset + (consumed + 4 + be32At data (offset + consumed)) =
                offset + consumed + (0 + (4 + be32At data (offset + consumed)))
                by omega,
              Nat.sub_sub]
          | none =>
            dsimp only
            rw [ih data offset endPos
                (consumed + 4 + be32At data (offset + consumed)) acc,
              ih (data.drop (offset + consumed)) 0 (endPos - (offset + consumed))
                (4 + be32At data (offset + consumed)) acc,
              List.drop_drop,
              show offset + (consumed + 4 + be32At data (offset + consumed)) =
                offset + consumed + (0 + (4 + be32At data (offset + consumed)))
                by omega,
              Nat.sub_sub]
        · rw [if_neg hsei, if_neg hsei,
            ih data offset endPos
              (consumed + 4 + be32At data (offset + consumed)) acc,
            ih (data.drop (offset + consumed)) 0 (endPos - (offset + consumed))
              (4 + be32At data (offset + consumed)) acc,
            List.drop_drop,
            show offset + (consumed + 4 + be32At data (offset + consumed)) =
              offset + consumed + (0 + (4 + be32At data (offset + consumed)))
              by omega,
            Nat.sub_sub]
    · rw [if_neg h1, if_neg (show ¬(4 < endPos - (offset + consumed)) by omega)]

theorem encodeUnits_drop4 (u : List ℕ) (rest : List (List ℕ)) :
    (encodeUnits (u :: rest)).drop 4 = u ++ encodeUnits rest := by
  show ((be32Enc u.length ++ u) ++ encodeUnits rest).drop 4 = _
  rw [List.append_assoc]
  have h4 : (be32Enc u.length).length = 4 := rfl
  rw [← h4, List.drop_left]

theorem byteAt_encode_unit (u : List ℕ) (rest : List (List ℕ)) (i : ℕ)
    (h : i < u.length) :
    byteAt (encodeUnits (u :: rest)) (4 + i) = byteAt u i := by
  have := byteAt_drop (encodeUnits (u :: rest)) 4 i
  rw [encodeUnits_drop4] at this
  rw [← this]
  show (u ++ encodeUnits rest).getD i 0 = u.getD i 0
  rw [List.getD_append _ _ _ _ h]

theorem iterNalsAux_encode :
    ∀ (us : List (List ℕ)) (fuel : ℕ) (acc : List Sample),
      (∀ u ∈ us, WFUnit u) → (encodeUnits us).length < fuel →
      iterNalsAux (encodeUnits us) 0 (encodeUnits us).length fuel 0 acc =
        acc ++ unitsSamples us := by
  intro us
  induction us with
  | nil =>
    intro fuel acc _ hfuel
    obtain ⟨f, rfl⟩ : ∃ f, fuel = f + 1 := ⟨fuel - 1, by omega⟩
    simp [iterNalsAux, encodeUnits, unitsSamples]
  | cons u rest ih =>
    intro fuel acc hwf hfuel
    obtain ⟨f, rfl⟩ : ∃ f, fuel = f + 1 := ⟨fuel - 1, by omega⟩
    obtain ⟨hu2, hu10, -⟩ := hwf u (by simp)
    have hlen := encodeUnits_length_cons u rest
    have hbe : be32At (encodeUnits (u :: rest)) 0 = u.length := by
      rw [show encodeUnits (u :: rest) =
        be32Enc u.length ++ (u ++ encodeUnits rest) by
          simp [encodeUnits, List.append_assoc]]
      exact be32At_encode u.length _ (by omega)
    have hb4 : byteAt (encodeUnits (u :: rest)) 4 = byteAt u 0 := by
      have := byteAt_encode_unit u rest 0 (by omega)
      simpa using this
    have hb5 : byteAt (encodeUnits (u :: rest)) 5 = byteAt u 1 := by
      have := byteAt_encode_unit u rest 1 (by omega)
      simpa using this
    simp only [iterNalsAux, Nat.zero_add, Nat.add_zero, hbe, hb4, hb5]
    rw [if_pos (show 4 < (encodeUnits (u :: rest)).length by omega),
      if_neg (show ¬(u.length < 2 ∨
        4 + u.length > (encodeUnits (u :: rest)).length) by omega),
      encodeUnits_slice]
    have hrest : ∀ v ∈ rest, WFUnit v := fun v hv => hwf v (by simp [hv])
    have hfuel' : (encodeUnits rest).length < f := by omega
    have hshift := iterNalsAux_shift f (encodeUnits (u :: rest)) 0
      ((encodeUnits (u :: rest)).length) (4 + u.length)
    have hz : (0 : ℕ) + (4 + u.length) = 4 + u.length := by omega
    have hdrop := encodeUnits_drop u rest
    have hsub : (encodeUnits (u :: rest)).length - (4 + u.length) =
        (encodeUnits rest).length := by omega
    by_cases hsei : byteAt u 0 &&& 31 = 6 ∧ byteAt u 1 = 5
    · rw [if_pos hsei]
      cases hd : decodeSeiNal u with
      | some m =>
        dsimp only
        rw [hshift (acc ++ [m]), hz, hdrop, hsub,
          ih f (acc ++ [m]) hrest hfuel']
        have hss : unitsSamples (u :: rest) = m :: unitsSamples rest := by
          simp [unitsSamples, seiSample?, hsei, hd]
        rw [hss]
        simp
      | none =>
        dsimp only
        rw [hshift acc, hz, hdrop, hsub, ih f acc hrest hfuel']
        have hss : unitsSamples (u :: rest) = unitsSamples rest := by
          simp [unitsSamples, seiSample?, hsei, hd]
        rw [hss]
    · rw [if_neg hsei]
      rw [hshift acc, hz, hdrop, hsub, ih f acc hrest hfuel']
      have hss : unitsSamples (u :: rest) = unitsSamples rest := by
        simp only [unitsSamples, List.filterMap_cons]
        rw [show seiSample? u = none by simp [seiSample?, hsei]]
      rw [hss]

theorem numberFrom_map_snd :
    ∀ (l : List Sample) (k : ℕ), (numberFrom k l).map (fun p => p.2) = l := by
  intro l
  induction l with
  | nil => intro k; rfl
  | cons m rest ih => intro k; simp [numberFrom, ih (k + 1)]

/-- C8 amended: on every buffer that is an exact concatenation of
well-formed length-prefixed units (4-byte big-endian declared length
within `[2, 10 MiB]`, payload complete, genuine byte values), the
streaming worker's NAL parse and the inline batch NAL iteration produce
exactly the same ordered sequence of telemetry samples, and the worker
consumes the buffer completely (no remainder).  (On corrupt framing the
two resynchronize differently and may diverge — see the
counterexample.) -/
theorem pipelines_agree_on_wellformed (us : List (List ℕ))
    (h : ∀ u ∈ us, WFUnit u) :
    (parseNalUnitsInChunk (encodeUnits us) 0).frames.map (fun p => p.2) =
        iterNalsDecode (encodeUnits us) 0 (encodeUnits us).length ∧
      (parseNalUnitsInChunk (encodeUnits us) 0).remaining = none := by
  have hw := parseNalAux_encode us ((encodeUnits us).length + 1) 0 [] h (by omega)
  have hend : (if (encodeUnits us).length = 0 then (encodeUnits us).length
      else 0 + (encodeUnits us).length) = (encodeUnits us).length := by
    split <;> omega
  have hi := iterNalsAux_encode us ((encodeUnits us).length + 1) [] h (by omega)
  unfold parseNalUnitsInChunk iterNalsDecode
  rw [hend, hw, hi]
  exact ⟨by simp [numberFrom_map_snd], rfl⟩

/-- Witness for C8 (amended) at a concrete single-unit stream carrying
one SEI telemetry record. -/
theorem pipelines_agree_on_wellformed_witness :
    (parseNalUnitsInChunk (encodeUnits [[6, 5, 0, 105, 56, 1, 128]]) 0).frames.map
          (fun p => p.2) =
        iterNalsDecode (encodeUnits [[6, 5, 0, 105, 56, 1, 128]]) 0
          (encodeUnits [[6, 5, 0, 105, 56, 1, 128]]).length ∧
      (parseNalUnitsInChunk (encodeUnits [[6, 5, 0, 105, 56, 1, 128]]) 0).remaining =
        none :=
  pipelines_agree_on_wellformed [[6, 5, 0, 105, 56, 1, 128]] (by decide)

/-- C9: pending-seek exclusion — on every tick entered with a pending
seek target, the reported unified time is not updated (the last stable
value is held, `updateTime` being gated before the enforcer runs); as
long as the seek has not resolved (master below `readyState 1` or
position farther than the 0.5 s tolerance from the target) no
stall-recovery action fires for the master or any slave, no drift seek
and no resume is issued for any stream, and the target stays pending;
once the position is within tolerance the pending target is cleared, and
only then does drift/stall processing resume. -/
theorem pending_seek_exclusion (st : LoopState) (frontObs : SlaveObs)
    (ios : List SlaveObs) (segStart tgt : ℚ) (hp : st.pending = some tgt) :
    (frameTick st frontObs ios segStart).2.timeUpdated = false ∧
      (frameTick st frontObs ios segStart).1.reported = st.reported ∧
      (¬(frontObs.ready ≥ 1 ∧ |frontObs.cur - tgt| ≤ 1 / 2) →
        (∀ a ∈ (frameTick st frontObs ios segStart).2.slaveActs, a = none) ∧
          (frameTick st frontObs ios segStart).2.frontAct = none ∧
          (∀ b ∈ (frameTick st frontObs ios segStart).2.driftSeeks, b = false) ∧
          (∀ b ∈ (frameTick st frontObs ios segStart).2.resumes, b = false) ∧
          (frameTick st frontObs ios segStart).1.pending = some tgt) ∧
      ((frontObs.ready ≥ 1 ∧ |frontObs.cur - tgt| ≤ 1 / 2) →
        (frameTick st frontObs ios segStart).1.pending = none) := by
  have hres : seekResolved (some tgt) frontObs = true ↔
      (frontObs.ready ≥ 1 ∧ |frontObs.cur - tgt| ≤ 1 / 2) := by
    simp [seekResolved, not_lt]
  by_cases hc : frontObs.ready ≥ 1 ∧ |frontObs.cur - tgt| ≤ 1 / 2
  · have hr : seekResolved (some tgt) frontObs = true := hres.mpr hc
    refine ⟨?_, ?_, fun h => absurd hc h, fun _ => ?_⟩
    · simp only [frameTick, hp, hr]
      repeat' split
      all_goals simp_all
    · simp only [frameTick, hp, hr]
      repeat' split
      all_goals simp_all
    · simp only [frameTick, hp, hr, Bool.false_eq_true]
      repeat' split
      all_goals simp_all
  · have hr : seekResolved (some tgt) frontObs = false := by
      cases h : seekResolved (some tgt) frontObs
      · rfl
      · exact absurd (hres.mp h) hc
    refine ⟨?_, ?_, fun _ => ?_, fun h => absurd h hc⟩
    · simp only [frameTick, hp, hr, Bool.false_eq_true]
      repeat' split
      all_goals simp_all
    · simp only [frameTick, hp, hr, Bool.false_eq_true]
      repeat' split
      all_goals simp_all
    · simp only [frameTick, hp, hr, Bool.false_eq_true]
      repeat' split
      all_goals simp_all

/-- Witness for C9 on a concrete pending tick (target 10 s, master at
0 s): time is held at the last stable value. -/
theorem pending_seek_exclusion_witness :
    (frameTick ⟨some 10, 3, 0, ⟨0, 0, 0⟩, [⟨0, 0, 0⟩]⟩ ⟨0, false, 1, true⟩
          [⟨0, false, 2, true⟩] 0).2.timeUpdated = false ∧
      (frameTick ⟨some 10, 3, 0, ⟨0, 0, 0⟩, [⟨0, 0, 0⟩]⟩ ⟨0, false, 1, true⟩
          [⟨0, false, 2, true⟩] 0).1.reported = (3 : ℚ) :=
  ⟨(pending_seek_exclusion ⟨some 10, 3, 0, ⟨0, 0, 0⟩, [⟨0, 0, 0⟩]⟩
      ⟨0, false, 1, true⟩ [⟨0, false, 2, true⟩] 0 10 rfl).1,
    (pending_seek_exclusion ⟨some 10, 3, 0, ⟨0, 0, 0⟩, [⟨0, 0, 0⟩]⟩
      ⟨0, false, 1, true⟩ [⟨0, false, 2, true⟩] 0 10 rfl).2.1⟩

end Anicam
